import Mathlib

/-!
Verification of the `char_index` crate: an owned string wrapper
(`OwnedIndexedChars`, src/owned.rs) around a segmented character-offset
cache (`IndexedCharsInner`).

Text is modelled as `List Char` (the sequence of Unicode scalar values of
a valid UTF-8 buffer); byte offsets are recovered through the UTF-8
encoded length of each scalar value.
-/

namespace CharIndex

/-- UTF-8 encoded byte length (1–4) of a Unicode scalar value. -/
def utf8Len (c : Char) : Nat :=
  if c.toNat < 0x80 then 1
  else if c.toNat < 0x800 then 2
  else if c.toNat < 0x10000 then 3
  else 4

/-- Total UTF-8 byte length of a text. -/
def byteLen (s : List Char) : Nat := (s.map utf8Len).sum

/-- Byte offset at which the `k`-th character of `s` starts. -/
def offs (s : List Char) (k : Nat) : Nat := byteLen (s.take k)

/-- Modelled from the spec: the core segment representation is not under
src/ (only `owned.rs` is); §3 of the spec describes a Segment as a starting
character index, a starting byte offset, and the per-character cumulative
byte offsets relative to the segment start. -/
structure Segment where
  startChar : Nat
  startByte : Nat
  rel : List Nat

/-- Modelled from the spec: the Index Builder loop of §4.1, which is not
under src/. State: remaining characters, absolute byte position, characters
consumed, running relative offset, current segment (start char, start byte,
entries), closed segments. A character whose length would push the running
relative offset past 255 closes the current segment and opens a new one;
the final segment is closed when the input is exhausted. -/
def buildGo : List Char → Nat → Nat → Nat → Nat → Nat → List Nat → List Segment → List Segment
  | [], _bytePos, _charsSeen, _runningRel, segStartChar, segStartByte, segRel, closed =>
      closed ++ [⟨segStartChar, segStartByte, segRel⟩]
  | c :: rest, bytePos, charsSeen, runningRel, segStartChar, segStartByte, segRel, closed =>
      if runningRel + utf8Len c > 255 then
        buildGo rest (bytePos + utf8Len c) (charsSeen + 1) (utf8Len c) charsSeen bytePos [0]
          (closed ++ [⟨segStartChar, segStartByte, segRel⟩])
      else
        buildGo rest (bytePos + utf8Len c) (charsSeen + 1) (runningRel + utf8Len c)
          segStartChar segStartByte (segRel ++ [runningRel]) closed

/-- Modelled from the spec: `build(text) -> Index` of §4.1. -/
def buildSegments (s : List Char) : List Segment := buildGo s 0 0 0 0 0 [] []

/-- Modelled from the spec: the segment search of §4.2 — the segment whose
starting character index is the largest value ≤ the requested index. -/
def findSegment (segs : List Segment) (i : Nat) : Option Segment :=
  segs.foldl (fun acc seg => if seg.startChar ≤ i then some seg else acc) none

/-- Modelled from the spec: in-segment offset resolution of §4.2 — the
byte offset of character `i` is `startByte + rel[i - startChar]`, absent
when no segment entry covers `i`. -/
def byteFor (segs : List Segment) (i : Nat) : Option Nat :=
  match findSegment segs i with
  | none => none
  | some seg => (seg.rel.get? (i - seg.startChar)).map (fun r => seg.startByte + r)

/-- Decode the character starting at byte offset `b` of the UTF-8 encoding
of `s`; `none` when `b` is not a character boundary inside the text. -/
def decodeAt : List Char → Nat → Option Char
  | [], _ => none
  | c :: rest, b =>
      if b = 0 then some c
      else if b < utf8Len c then none
      else decodeAt rest (b - utf8Len c)

/-- Modelled from the spec: the Index of §3 — the ordered segments plus the
cached total character count (the number of entries across all segments). -/
structure IndexedCharsInner where
  segments : List Segment
  charCount : Nat

/-- Total number of per-character entries across all segments. -/
def totalEntries (segs : List Segment) : Nat :=
  (segs.map (fun seg => seg.rel.length)).sum

/-- Modelled from the spec: `IndexedCharsInner::new`, the Builder entry
point, which is not under src/. -/
def IndexedCharsInner.new (s : List Char) : IndexedCharsInner :=
  { segments := buildSegments s, charCount := totalEntries (buildSegments s) }

/-- Modelled from the spec: `IndexedCharsInner::get_char` lookup of §4.2,
which is not under src/. -/
def IndexedCharsInner.get_char (inner : IndexedCharsInner) (buf : List Char) (i : Nat) :
    Option Char :=
  match byteFor inner.segments i with
  | none => none
  | some b => decodeAt buf b

/-- Modelled from the spec: `IndexedCharsInner::char_count`, the cached
O(1) total character count, which is not under src/. -/
def IndexedCharsInner.char_count (inner : IndexedCharsInner) (_buf : List Char) : Nat :=
  inner.charCount

/-- `OwnedIndexedChars` (src/owned.rs:25): a backing string buffer paired
with its char-offsets index. -/
structure OwnedIndexedChars where
  buf : List Char
  inner : IndexedCharsInner

/-- `OwnedIndexedChars::new` (src/owned.rs:45). -/
def OwnedIndexedChars.new (s : List Char) : OwnedIndexedChars :=
  { buf := s, inner := IndexedCharsInner.new s }

/-- `OwnedIndexedChars::get_char` (src/owned.rs:63). -/
def OwnedIndexedChars.get_char (o : OwnedIndexedChars) (i : Nat) : Option Char :=
  o.inner.get_char o.buf i

/-- `OwnedIndexedChars::char_count` (src/owned.rs:70). -/
def OwnedIndexedChars.char_count (o : OwnedIndexedChars) : Nat :=
  o.inner.char_count o.buf

/-- `OwnedIndexedChars::into_string` (src/owned.rs:76). -/
def OwnedIndexedChars.into_string (o : OwnedIndexedChars) : List Char :=
  o.buf

/-- `OwnedIndexedChars::as_str` (src/owned.rs:90). -/
def OwnedIndexedChars.as_str (o : OwnedIndexedChars) : List Char :=
  o.buf

/-! ### Basic facts about byte lengths and offsets -/

theorem utf8Len_pos (c : Char) : 0 < utf8Len c := by
  unfold utf8Len
  repeat' split
  all_goals omega

theorem byteLen_nil : byteLen [] = 0 := rfl

theorem byteLen_append (p q : List Char) : byteLen (p ++ q) = byteLen p + byteLen q := by
  simp [byteLen]

theorem byteLen_singleton (c : Char) : byteLen [c] = utf8Len c := by
  simp [byteLen]

theorem offs_append_left (p r : List Char) (k : Nat) (h : k ≤ p.length) :
    offs (p ++ r) k = offs p k := by
  unfold offs
  rw [List.take_append_of_le_length h]

theorem offs_append_len (p r : List Char) : offs (p ++ r) p.length = byteLen p := by
  rw [offs_append_left p r _ (le_refl _)]
  unfold offs
  rw [List.take_length]

/-! ### Decoding at a character boundary -/

theorem decodeAt_offs (s : List Char) (i : Nat) (h : i < s.length) :
    decodeAt s (offs s i) = s.get? i := by
  induction s generalizing i with
  | nil => simp at h
  | cons c rest ih =>
    cases i with
    | zero => simp [offs, byteLen, decodeAt]
    | succ n =>
      have hoffs : offs (c :: rest) (n + 1) = utf8Len c + offs rest n := by
        simp [offs, byteLen, List.take_succ_cons]
      have hpos := utf8Len_pos c
      rw [hoffs]
      unfold decodeAt
      rw [if_neg (by omega), if_neg (by omega)]
      have hrec : utf8Len c + offs rest n - utf8Len c = offs rest n := by omega
      rw [hrec, ih n (by simpa using h)]
      simp

/-! ### Segment search -/

theorem findSegment_append_single (xs : List Segment) (seg : Segment) (i : Nat) :
    findSegment (xs ++ [seg]) i
      = if seg.startChar ≤ i then some seg else findSegment xs i := by
  unfold findSegment
  rw [List.foldl_append]
  simp [List.foldl]

theorem byteFor_append_single_lt (xs : List Segment) (seg : Segment) (i : Nat)
    (h : i < seg.startChar) :
    byteFor (xs ++ [seg]) i = byteFor xs i := by
  unfold byteFor
  rw [findSegment_append_single, if_neg (by omega)]

theorem byteFor_append_single_le (xs : List Segment) (seg : Segment) (i : Nat)
    (h : seg.startChar ≤ i) :
    byteFor (xs ++ [seg]) i
      = (seg.rel.get? (i - seg.startChar)).map (fun r => seg.startByte + r) := by
  unfold byteFor
  rw [findSegment_append_single, if_pos h]

/-- Closing a segment whose entries are correct yields correct lookups for
every character index the closed segments and this segment cover. -/
theorem byteFor_close_seg (s : List Char) (segStartChar segStartByte : Nat)
    (segRel : List Nat) (closed : List Segment)
    (h7 : ∀ j r, segRel.get? j = some r → segStartByte + r = offs s (segStartChar + j))
    (h8 : ∀ i, i < segStartChar → byteFor closed i = some (offs s i)) :
    ∀ i, i < segStartChar + segRel.length →
      byteFor (closed ++ [⟨segStartChar, segStartByte, segRel⟩]) i = some (offs s i) := by
  intro i hi
  by_cases hc : segStartChar ≤ i
  · have hj : i - segStartChar < segRel.length := by omega
    have hget := List.get?_eq_get hj
    rw [byteFor_append_single_le _ _ _ hc]
    show (segRel.get? (i - segStartChar)).map (fun r => segStartByte + r) = some (offs s i)
    have hval := h7 (i - segStartChar) _ hget
    have hidx : segStartChar + (i - segStartChar) = i := by omega
    rw [hidx] at hval
    rw [hget]
    exact congrArg some hval
  · have hc' : i < segStartChar := by omega
    rw [byteFor_append_single_lt _ _ _ hc']
    exact h8 i hc'

/-- Main invariant of the Builder loop: if the state faithfully describes
the prefix `p` already consumed, the finished segment list resolves every
in-range character index of `s` to its true byte offset and every
out-of-range index to absence. -/
theorem buildGo_byteFor (rest : List Char) :
    ∀ (s p : List Char) (segStartChar segStartByte runningRel : Nat)
      (segRel : List Nat) (closed : List Segment),
      s = p ++ rest →
      segStartChar + segRel.length = p.length →
      segStartByte + runningRel = byteLen p →
      (∀ j r, segRel.get? j = some r → segStartByte + r = offs s (segStartChar + j)) →
      (∀ i, i < segStartChar → byteFor closed i = some (offs s i)) →
      ∀ i, byteFor
          (buildGo rest (byteLen p) p.length runningRel segStartChar segStartByte segRel closed) i
        = if i < s.length then some (offs s i) else none := by
  induction rest with
  | nil =>
    intro s p segStartChar segStartByte runningRel segRel closed hs h4 h5 h7 h8 i
    subst hs
    simp only [List.append_nil] at h7 h8 ⊢
    simp only [buildGo]
    by_cases hlen : i < p.length
    · rw [if_pos hlen]
      exact byteFor_close_seg p segStartChar segStartByte segRel closed h7 h8 i (by omega)
    · rw [if_neg hlen]
      have hc : segStartChar ≤ i := by omega
      rw [byteFor_append_single_le _ _ _ hc]
      show (segRel.get? (i - segStartChar)).map (fun r => segStartByte + r) = none
      rw [List.get?_eq_none.2 (by omega)]
      rfl
  | cons c rest ih =>
    intro s p segStartChar segStartByte runningRel segRel closed hs h4 h5 h7 h8 i
    subst hs
    have hs' : p ++ c :: rest = (p ++ [c]) ++ rest := by simp
    have e1 : byteLen p + utf8Len c = byteLen (p ++ [c]) := by
      rw [byteLen_append, byteLen_singleton]
    have e2 : p.length + 1 = (p ++ [c]).length := by simp
    simp only [buildGo]
    split
    · -- rollover: close the current segment, open a fresh one at this character
      rw [e1, e2]
      refine ih (p ++ c :: rest) (p ++ [c]) p.length (byteLen p) (utf8Len c) [0]
        (closed ++ [⟨segStartChar, segStartByte, segRel⟩]) hs' (by simp) e1 ?_ ?_ i
      · intro j r hjr
        cases j with
        | zero =>
          simp at hjr
          subst hjr
          simpa using (offs_append_len p (c :: rest)).symm
        | succ n => simp at hjr
      · intro k hk
        exact byteFor_close_seg (p ++ c :: rest) segStartChar segStartByte segRel closed
          h7 h8 k (by omega)
    · -- no rollover: extend the current segment with this character's entry
      rw [e1, e2]
      refine ih (p ++ c :: rest) (p ++ [c]) segStartChar segStartByte
        (runningRel + utf8Len c) (segRel ++ [runningRel]) closed hs'
        (by simp; omega) (by rw [← e1]; omega) ?_ h8 i
      intro j r hjr
      by_cases hj : j < segRel.length
      · rw [List.get?_append hj] at hjr
        exact h7 j r hjr
      · have hcase : j = segRel.length ∨ segRel.length + 1 ≤ j := by omega
        cases hcase with
        | inl hj' =>
          subst hj'
          rw [List.get?_concat_length] at hjr
          have hr : r = runningRel := by injection hjr with h; exact h.symm
          subst hr
          rw [h4]
          rw [offs_append_len p (c :: rest)]
          exact h5
        | inr hj' =>
          rw [List.get?_eq_none.2 (by simpa using hj')] at hjr
          exact absurd hjr (by simp)

/-- The built segment list resolves exactly the in-range character indices,
each to its true byte offset. -/
theorem byteFor_buildSegments (s : List Char) (i : Nat) :
    byteFor (buildSegments s) i = if i < s.length then some (offs s i) else none := by
  have h := buildGo_byteFor s s [] 0 0 0 [] [] rfl rfl rfl
    (by intro j r hjr; simp at hjr)
    (by intro k hk; omega)
  exact h i

/-- Lookup through a freshly built index agrees with direct decomposition
at every index, in range or not. -/
theorem get_char_spec (s : List Char) (i : Nat) :
    (OwnedIndexedChars.new s).get_char i = s.get? i := by
  show IndexedCharsInner.get_char (IndexedCharsInner.new s) s i = s.get? i
  unfold IndexedCharsInner.get_char IndexedCharsInner.new
  simp only
  rw [byteFor_buildSegments]
  by_cases h : i < s.length
  · rw [if_pos h]
    simp only
    exact decodeAt_offs s i h
  · rw [if_neg h]
    rw [List.get?_eq_none.2 (by omega)]

/-- The Builder records one entry per input character, whatever the state. -/
theorem totalEntries_buildGo (rest : List Char) :
    ∀ (bytePos charsSeen runningRel segStartChar segStartByte : Nat)
      (segRel : List Nat) (closed : List Segment),
      totalEntries
          (buildGo rest bytePos charsSeen runningRel segStartChar segStartByte segRel closed)
        = totalEntries closed + segRel.length + rest.length := by
  induction rest with
  | nil =>
    intro bytePos charsSeen runningRel segStartChar segStartByte segRel closed
    simp [buildGo, totalEntries]
  | cons c rest ih =>
    intro bytePos charsSeen runningRel segStartChar segStartByte segRel closed
    simp only [buildGo]
    split
    · rw [ih]
      simp [totalEntries]
      omega
    · rw [ih]
      simp [totalEntries]
      omega

/-- The cached character count of a fresh index is the decomposition length. -/
theorem char_count_spec (s : List Char) :
    (OwnedIndexedChars.new s).char_count = s.length := by
  show totalEntries (buildSegments s) = s.length
  unfold buildSegments
  rw [totalEntries_buildGo]
  simp [totalEntries]

/-! ### Trait implementations of src/owned.rs, modelled over `List Char`.
Rust `String`/`str` comparison is lexicographic over the UTF-8 bytes, so
the byte encoding is modelled explicitly. -/

/-- UTF-8 byte encoding of a single Unicode scalar value. -/
def utf8Bytes (c : Char) : List Nat :=
  let n := c.toNat
  if n < 0x80 then [n]
  else if n < 0x800 then [0xC0 + n / 64, 0x80 + n % 64]
  else if n < 0x10000 then [0xE0 + n / 4096, 0x80 + n / 64 % 64, 0x80 + n % 64]
  else [0xF0 + n / 262144, 0x80 + n / 4096 % 64, 0x80 + n / 64 % 64, 0x80 + n % 64]

/-- UTF-8 byte encoding of a text. -/
def strBytes (s : List Char) : List Nat := (s.map utf8Bytes).join

/-- Lexicographic comparison of byte sequences. -/
def cmpBytes : List Nat → List Nat → Ordering
  | [], [] => .eq
  | [], _ :: _ => .lt
  | _ :: _, [] => .gt
  | x :: xs, y :: ys =>
      match compare x y with
      | .eq => cmpBytes xs ys
      | o => o

/-- `str::cmp`: byte-lexicographic comparison of two texts. -/
def strCmp (a b : List Char) : Ordering := cmpBytes (strBytes a) (strBytes b)

/-- `impl PartialEq for OwnedIndexedChars` (src/owned.rs:131): compares the
backing buffers only. -/
def OwnedIndexedChars.eq (a b : OwnedIndexedChars) : Bool := a.buf == b.buf

/-- `impl Ord for OwnedIndexedChars` (src/owned.rs:149): compares the
backing buffers only. -/
def OwnedIndexedChars.cmp (a b : OwnedIndexedChars) : Ordering := strCmp a.buf b.buf

/-- `impl PartialOrd for OwnedIndexedChars` (src/owned.rs:155):
`Some(self.cmp(other))`. Models Rust `partial_cmp`. -/
def OwnedIndexedChars.partCmp (a b : OwnedIndexedChars) : Option Ordering := some (a.cmp b)

/-- `impl PartialEq<str> for OwnedIndexedChars` (src/owned.rs:137):
`self.buf.eq(other)`. -/
def OwnedIndexedChars.eqStr (a : OwnedIndexedChars) (s : List Char) : Bool := a.buf == s

/-- `impl PartialEq<OwnedIndexedChars> for str` (src/owned.rs:143):
`self.eq(&other.buf)`. -/
def strEqOwned (s : List Char) (a : OwnedIndexedChars) : Bool := s == a.buf

/-- `impl PartialOrd<str> for OwnedIndexedChars` (src/owned.rs:161):
`Some((*self.buf).cmp(other))`. Models Rust `partial_cmp`. -/
def OwnedIndexedChars.partCmpStr (a : OwnedIndexedChars) (s : List Char) : Option Ordering :=
  some (strCmp a.buf s)

/-- `impl PartialOrd<OwnedIndexedChars> for str` (src/owned.rs:167):
`Some(self.cmp(&other.buf))`. Models Rust `partial_cmp`. -/
def strPartCmpOwned (s : List Char) (a : OwnedIndexedChars) : Option Ordering :=
  some (strCmp s a.buf)

/-- `impl Hash for OwnedIndexedChars` (src/owned.rs:173) hashes
`self.buf` and nothing else: the data fed to the hasher is the buffer. -/
def OwnedIndexedChars.hashInput (a : OwnedIndexedChars) : List Char := a.buf

/-- The test text for the rollover boundary: exactly 255 one-byte (ASCII)
characters followed by one multi-byte (two-byte) character. -/
def t255 : List Char := List.replicate 255 'a' ++ ['é']

/-! ### Claims -/

/-- C1: For every valid UTF-8 text T and every index i with
0 ≤ i < char_count(T), get_char(i) on the index built from T returns Some
of the same character obtained by decoding T character-by-character and
taking the ith one. -/
theorem getChar_returns_ith_char (s : List Char) (i : Nat)
    (h : i < (OwnedIndexedChars.new s).char_count) :
    ∃ c, (OwnedIndexedChars.new s).get_char i = some c ∧ s.get? i = some c := by
  have hlen : i < s.length := by rw [char_count_spec] at h; exact h
  refine ⟨s.get ⟨i, hlen⟩, ?_, List.get?_eq_get hlen⟩
  rw [get_char_spec]
  exact List.get?_eq_get hlen

theorem getChar_returns_ith_char_witness :
    1 < (OwnedIndexedChars.new ['f', 'o', 'o']).char_count ∧
      ∃ c, (OwnedIndexedChars.new ['f', 'o', 'o']).get_char 1 = some c ∧
        (['f', 'o', 'o'] : List Char).get? 1 = some c :=
  ⟨by decide, getChar_returns_ith_char ['f', 'o', 'o'] 1 (by decide)⟩

/-- C2: For every text T and every index i ≥ char_count(T) (including
index 0 when T is empty), get_char(i) returns the explicit absence value
`none` — never a wrapped-around or decoded-out-of-range character. -/
theorem getChar_out_of_range_none (s : List Char) (i : Nat)
    (h : (OwnedIndexedChars.new s).char_count ≤ i) :
    (OwnedIndexedChars.new s).get_char i = none := by
  rw [char_count_spec] at h
  rw [get_char_spec]
  exact List.get?_eq_none.2 h

theorem getChar_out_of_range_none_witness :
    (OwnedIndexedChars.new []).char_count ≤ 0 ∧
      (OwnedIndexedChars.new []).get_char 0 = none :=
  ⟨by decide, getChar_out_of_range_none [] 0 (by decide)⟩

/-- C3: For every text T, char_count() on the index built from T equals
the number of Unicode scalar values obtained by directly decomposing T
into characters; the call is a total function. -/
theorem charCount_eq_decomposition (s : List Char) :
    (OwnedIndexedChars.new s).char_count = s.length :=
  char_count_spec s

/-- C4: For every String s, into_string(new(s)) returns a string equal to
s — constructing the owning wrapper and then discarding the index recovers
the original buffer unchanged. -/
theorem intoString_new_roundtrip (s : List Char) :
    (OwnedIndexedChars.new s).into_string = s := rfl

/-- C5: For every pair of OwnedIndexedChars instances a and b (with
arbitrary cached indices), a == b holds if and only if their underlying
texts are equal; the cached index/segmentation never influences equality. -/
theorem owned_eq_iff_text_eq (a b : OwnedIndexedChars) :
    OwnedIndexedChars.eq a b = true ↔ a.buf = b.buf := by
  simp [OwnedIndexedChars.eq]

/-- C6: Hashing is consistent with equality: whenever a == b (equal
underlying text), hashing a and hashing b feed identical data to the
hasher, since both hash only the underlying text. -/
theorem hash_consistent_with_eq (a b : OwnedIndexedChars)
    (h : OwnedIndexedChars.eq a b = true) :
    OwnedIndexedChars.hashInput a = OwnedIndexedChars.hashInput b := by
  have hb : a.buf = b.buf := by simpa [OwnedIndexedChars.eq] using h
  simpa [OwnedIndexedChars.hashInput] using hb

theorem hash_consistent_with_eq_witness :
    OwnedIndexedChars.eq (OwnedIndexedChars.new ['a']) (OwnedIndexedChars.new ['a']) = true ∧
      OwnedIndexedChars.hashInput (OwnedIndexedChars.new ['a'])
        = OwnedIndexedChars.hashInput (OwnedIndexedChars.new ['a']) :=
  ⟨by decide, hash_consistent_with_eq _ _ (by decide)⟩

/-- C7: For every pair of OwnedIndexedChars instances — whatever cached
indices j and k they carry — cmp equals the byte-lexicographic ordering of
their underlying texts, and partial_cmp always returns Some of cmp;
ordering never depends on the cached index. -/
theorem cmp_by_text_partCmp_some (a b : OwnedIndexedChars) (j k : IndexedCharsInner) :
    OwnedIndexedChars.cmp ⟨a.buf, j⟩ ⟨b.buf, k⟩ = strCmp a.buf b.buf
    ∧ OwnedIndexedChars.partCmp ⟨a.buf, j⟩ ⟨b.buf, k⟩
        = some (OwnedIndexedChars.cmp ⟨a.buf, j⟩ ⟨b.buf, k⟩) :=
  ⟨rfl, rfl⟩

/-- C8: For the text of exactly 255 one-byte (ASCII) characters followed
by one multi-byte character, get_char(i) resolves every one of the 256
positions i ∈ [0, 256) to the correct character: the rollover threshold at
relative offset 255 causes no misindexing. -/
theorem rollover_boundary_correct (i : Nat) (h : i < 256) :
    ∃ c, (OwnedIndexedChars.new t255).get_char i = some c ∧ t255.get? i = some c := by
  have hlen : t255.length = 256 := by
    simp only [t255, List.length_append, List.length_replicate, List.length_cons,
      List.length_nil]
  have h2 : i < t255.length := by omega
  refine ⟨t255.get ⟨i, h2⟩, ?_, List.get?_eq_get h2⟩
  rw [get_char_spec]
  exact List.get?_eq_get h2

theorem rollover_boundary_correct_witness :
    255 < 256 ∧
      ∃ c, (OwnedIndexedChars.new t255).get_char 255 = some c ∧ t255.get? 255 = some c :=
  ⟨by decide, rollover_boundary_correct 255 (by decide)⟩

/-- C9: Index construction is deterministic/idempotent: building the index
from the same text twice yields structures whose get_char results agree at
every index, in range or not. Construction is a pure function of the text,
so the two builds are the same value. -/
theorem rebuild_same_lookups (s : List Char) (i : Nat) :
    OwnedIndexedChars.get_char ⟨s, IndexedCharsInner.new s⟩ i
      = OwnedIndexedChars.get_char ⟨s, IndexedCharsInner.new s⟩ i := rfl

/-- C10 counterexample: str's partial_cmp against an OwnedIndexedChars
returns the ordering of the str against the wrapper's text — not, as the
claim has it for both directions, the ordering of the wrapper's text
against the str. At x = "a", s = "b" the two orderings differ. -/
theorem strPartCmp_not_owned_order :
    ¬ (strPartCmpOwned ['b'] (OwnedIndexedChars.new ['a'])
        = some (strCmp (OwnedIndexedChars.new ['a']).buf ['b'])) := by
  decide

/-- C10 (amended): cross-type comparison with a plain string slice is
consistent: x == s, s == x, and x.as_str() == s all coincide; x's
partial_cmp against s always returns Some of the ordering of x's text
against s, s's partial_cmp against x always returns Some of the ordering
of s against x's text, and neither direction ever returns None. -/
theorem cross_type_cmp_consistent (x : OwnedIndexedChars) (s : List Char) :
    (OwnedIndexedChars.eqStr x s = strEqOwned s x)
    ∧ (OwnedIndexedChars.eqStr x s = true ↔ OwnedIndexedChars.as_str x = s)
    ∧ OwnedIndexedChars.partCmpStr x s = some (strCmp x.buf s)
    ∧ strPartCmpOwned s x = some (strCmp s x.buf)
    ∧ OwnedIndexedChars.partCmpStr x s ≠ none
    ∧ strPartCmpOwned s x ≠ none := by
  refine ⟨?_, ?_, rfl, rfl, by simp [OwnedIndexedChars.partCmpStr], by simp [strPartCmpOwned]⟩
  · rw [Bool.eq_iff_iff]
    simp only [OwnedIndexedChars.eqStr, strEqOwned, beq_iff_eq]
    exact eq_comm
  · simp [OwnedIndexedChars.eqStr, OwnedIndexedChars.as_str]

end CharIndex
